import Mathlib

/-! # go-emitter: a verification development

A shallow embedding of `emitter.go` (package `emitter`) and theorems about it.

The Go program keeps one map `listeners : map[string][]Listener`.  A Go slice is
a header (pointer, length) over a backing array, and the program relies on that:
`Off` shifts the cells of the backing array in place but stores no new header
in the map, and `Emit` ranges over a header taken at its start while the
listeners it calls may shift the same array.  The embedding therefore keeps the
backing arrays in an explicit memory, addressed by number, and the map holds
slice headers.

Listeners are Go function values.  The embedding knows three kinds of them: the
nil function, a function of the caller (which is observed through the list of
calls it receives and does not use the emitter), and the closure that `Once`
builds.
-/

namespace GoEmitter

/-! ## Data model -/

/-- What `reflect.ValueOf(f).Pointer()` yields for a func value: the address of
the code of the function, not of the closure. -/
inductive CodePtr
  | null
  | onceLit
  | user (code : Nat)
deriving DecidableEq, Repr

/-- A value of type `Listener` (`func(interface{})`).
* `nil`: the nil function;
* `fn code inst`: a function of the caller, `code` naming its code and `inst`
  the closure instance;
* `wrapper event listener inst`: the closure built by `Once(event, listener)`,
  `inst` naming the instance. -/
inductive Listener
  | nil
  | fn (code : Nat) (inst : Nat)
  | wrapper (event : String) (listener : Listener) (inst : Nat)
deriving DecidableEq, Repr

/-- The code pointer `reflect.ValueOf(l).Pointer()`. -/
def Listener.pointer : Listener → CodePtr
  | .nil => .null
  | .fn code _ => .user code
  | .wrapper _ _ _ => .onceLit

/-- An error value made by `errors.New`. -/
structure Error where
  msg : String
deriving DecidableEq, Repr

/-- The package variable `ErrEventNotRegistered`. -/
def ErrEventNotRegistered : Error := ⟨"event not registered"⟩

/-- A slice header stored in the map.  Every stored slice starts at the first
cell of its backing array, so its capacity is the length of that array. -/
structure Slice where
  ptr : Nat
  len : Nat
deriving DecidableEq, Repr

/-- The state behind an `emitter` value: the map `listeners`, the memory holding
the backing arrays (`mem p` is the array at address `p`, its length the
capacity), the next free address `brk`, and the number of closures `Once` has
built so far. -/
structure Emitter where
  listeners : String → Option Slice
  mem : Nat → List Listener
  brk : Nat
  closures : Nat

/-- The function `NewEmitter`: an empty map. -/
def NewEmitter : Emitter :=
  { listeners := fun _ => none, mem := fun _ => [], brk := 0, closures := 0 }

/-- The cells `events[0], ..., events[len-1]` of a slice. -/
def Emitter.cells (e : Emitter) (events : Slice) : List Listener :=
  (e.mem events.ptr).take events.len

/-- The listener sequence stored for an event: the cells of `e.listeners[event]`
(the nil slice, with no cells, when the key is absent). -/
def Emitter.stored (e : Emitter) (event : String) : List Listener :=
  match e.listeners event with
  | none => []
  | some events => e.cells events

/-- Whether `event` is a key of the map. -/
def Emitter.hasKey (e : Emitter) (event : String) : Bool :=
  (e.listeners event).isSome

/-! ## Operations -/

/-- The method `On`: `e.listeners[event] = append(e.listeners[event], listener)`.

`append` writes in place when the slice has room (`len < cap`) and otherwise
copies the cells to a new array.  The capacity of a new array is chosen by the
Go runtime: `spare c` is the number of cells it adds beyond the one needed when
the old capacity was `c`; the new cells beyond the length are nil. -/
def On (spare : Nat → Nat) (e : Emitter) (event : String) (listener : Listener) : Emitter :=
  match e.listeners event with
  | some events =>
    if events.len < (e.mem events.ptr).length then
      { e with
        mem := Function.update e.mem events.ptr ((e.mem events.ptr).set events.len listener)
        listeners := Function.update e.listeners event (some ⟨events.ptr, events.len + 1⟩) }
    else
      { e with
        mem := Function.update e.mem e.brk
          (e.cells events ++ listener ::
            List.replicate (spare (e.mem events.ptr).length) Listener.nil)
        brk := e.brk + 1
        listeners := Function.update e.listeners event (some ⟨e.brk, events.len + 1⟩) }
  | none =>
    { e with
      mem := Function.update e.mem e.brk (listener :: List.replicate (spare 0) Listener.nil)
      brk := e.brk + 1
      listeners := Function.update e.listeners event (some ⟨e.brk, 1⟩) }

/-- The inner loop of `Off`: the first index whose entry has the code pointer
`p`, scanning from the front. -/
def scan (p : CodePtr) : List Listener → Option Nat
  | [] => none
  | fn :: rest => if fn.pointer ≠ p then (scan p rest).map (· + 1) else some 0

/-- The cells of an array after `append(events[:i], events[i+1:]...)` on a slice
of length `len` over it: the cells after `i` move one place to the left, the
cells from `len - 1` on are not written. -/
def shiftLeft (arr : List Listener) (len i : Nat) : List Listener :=
  arr.take i ++ ((arr.drop (i + 1)).take (len - (i + 1)) ++ arr.drop (len - 1))

/-- The method `Off`.  The new header `append(events[:i], events[i+1:]...)` is
assigned to the local variable `events` only; the map keeps its header, and the
key is deleted when the local slice has become empty. -/
def Off (e : Emitter) (event : String) (listener : Listener) : Emitter × Option Error :=
  match e.listeners event with
  | none => (e, some ErrEventNotRegistered)
  | some events =>
    match scan listener.pointer (e.cells events) with
    | none => (e, some ErrEventNotRegistered)
    | some i =>
      let e1 : Emitter :=
        { e with mem := Function.update e.mem events.ptr
                  (shiftLeft (e.mem events.ptr) events.len i) }
      if events.len - 1 < 1 then
        ({ e1 with listeners := Function.update e1.listeners event none }, none)
      else
        (e1, none)

/-- The method `Once`: builds the closure `wrapper` and registers it with `On`. -/
def Once (spare : Nat → Nat) (e : Emitter) (event : String) (listener : Listener) : Emitter :=
  On spare { e with closures := e.closures + 1 } event
    (Listener.wrapper event listener e.closures)

/-- A run of listener calls: the emitter state, the calls received so far by
functions of the caller (function and argument, oldest first), and whether a
call has panicked. -/
structure Run (α : Type) where
  e : Emitter
  calls : List (Listener × α)
  panicked : Bool

/-- Calling a listener with `val`.  Calling the nil function panics.  A function
of the caller receives the call.  The closure of `Once` calls its listener and
then `e.Off(event, wrapper)` with itself. -/
def call {α : Type} : Listener → α → Run α → Run α
  | .nil, _, r => { r with panicked := true }
  | .fn code inst, val, r => { r with calls := r.calls ++ [(.fn code inst, val)] }
  | .wrapper event listener inst, val, r =>
    let r1 := call listener val r
    if r1.panicked then r1
    else { r1 with e := (Off r1.e event (.wrapper event listener inst)).1 }

/-- The loop `for _, listener := range events { listener(val) }` with `n`
iterations to go, at index `i`: the header of `events` was read once, each cell
is read from the backing array when its turn comes. -/
def rangeCall {α : Type} (ptr : Nat) (val : α) : Nat → Nat → Run α → Run α
  | 0, _, r => r
  | n + 1, i, r =>
    match (r.e.mem ptr)[i]? with
    | none => { r with panicked := true }
    | some listener =>
      let r1 := call listener val r
      if r1.panicked then r1 else rangeCall ptr val n (i + 1) r1

/-- How a call of `Emit` ends: it returns an error value (`none` for nil), or it
panics. -/
inductive Outcome
  | returned (err : Option Error)
  | panic
deriving DecidableEq, Repr

/-- The result of `Emit`: the state it leaves, the calls it made, how it ended. -/
structure EmitResult (α : Type) where
  e : Emitter
  calls : List (Listener × α)
  out : Outcome

/-- The method `Emit`. -/
def Emit {α : Type} (e : Emitter) (event : String) (val : α) : EmitResult α :=
  match e.listeners event with
  | none => ⟨e, [], .returned (some ErrEventNotRegistered)⟩
  | some events =>
    let r := rangeCall events.ptr val events.len 0 ⟨e, [], false⟩
    ⟨r.e, r.calls, if r.panicked then .panic else .returned none⟩

/-- The capacity policy of the Go runtime for short slices of func values, which
doubles the capacity: from capacity `c` the new array has `2 * c` cells (one
cell from capacity 0), that is `c - 1` beyond the one needed. -/
def goSpare (c : Nat) : Nat := c - 1

/-- A state with one listener, registered on "bar". -/
def onBar : Emitter := On goSpare NewEmitter "bar" (.fn 1 0)

/-- Whether a listener is a function of the caller. -/
def Listener.isFn : Listener → Bool
  | .fn _ _ => true
  | _ => false

/-- The calls `On(event, l1)`, ..., `On(event, ln)`, in this order. -/
def OnAll (spare : Nat → Nat) (e : Emitter) (event : String) : List Listener → Emitter
  | [] => e
  | l :: ls => OnAll spare (On spare e event l) event ls

/-- A state with three listeners, registered on "foo". -/
def onFoo : Emitter := OnAll goSpare NewEmitter "foo" [.fn 1 0, .fn 2 0, .fn 3 0]

/-- The states a Go program can be in: every stored slice lies within its
backing array, backing arrays are allocated below `brk`, and two keys never
share a backing array. -/
structure Emitter.WF (e : Emitter) : Prop where
  cap : ∀ k s, e.listeners k = some s → s.len ≤ (e.mem s.ptr).length
  lt : ∀ k s, e.listeners k = some s → s.ptr < e.brk
  inj : ∀ k k2 s s2, e.listeners k = some s → e.listeners k2 = some s2 → s.ptr = s2.ptr → k = k2

/-- The states reachable from `NewEmitter()` by calls of the four methods. -/
inductive Reachable : Emitter → Prop
  | new : Reachable NewEmitter
  | afterOn (spare : Nat → Nat) (e : Emitter) (event : String) (listener : Listener) :
      Reachable e → Reachable (On spare e event listener)
  | afterOnce (spare : Nat → Nat) (e : Emitter) (event : String) (listener : Listener) :
      Reachable e → Reachable (Once spare e event listener)
  | afterOff (e : Emitter) (event : String) (listener : Listener) :
      Reachable e → Reachable (Off e event listener).1
  | afterEmit {α : Type} (e : Emitter) (event : String) (val : α) :
      Reachable e → Reachable (Emit e event val).e

/-! ## Lemmas on the loops of `Off` -/

theorem scan_lt {p : CodePtr} {l : List Listener} {i : Nat} (h : scan p l = some i) :
    i < l.length := by
  induction l generalizing i with
  | nil => simp [scan] at h
  | cons x xs ih =>
    simp only [scan] at h
    split at h
    · cases hs : scan p xs with
      | none => simp [hs] at h
      | some j =>
        simp [hs] at h
        have := ih hs
        simp only [List.length_cons]
        omega
    · simp at h
      simp only [List.length_cons]
      omega

theorem scan_eq_none_iff {p : CodePtr} {l : List Listener} :
    scan p l = none ↔ ∀ x ∈ l, x.pointer ≠ p := by
  induction l with
  | nil => simp [scan]
  | cons x xs ih =>
    simp only [scan, List.mem_cons, forall_eq_or_imp]
    split
    · rename_i hx
      simp [ih, hx]
    · rename_i hx
      simp only [ne_eq, Decidable.not_not] at hx
      simp [hx]

theorem scan_isSome_iff {p : CodePtr} {l : List Listener} :
    (∃ i, scan p l = some i) ↔ ∃ x ∈ l, x.pointer = p := by
  rw [← not_iff_not]
  push_neg
  rw [← scan_eq_none_iff]
  cases scan p l <;> simp

theorem length_shiftLeft {arr : List Listener} {len i : Nat} (hi : i < len)
    (hlen : len ≤ arr.length) : (shiftLeft arr len i).length = arr.length := by
  simp only [shiftLeft, List.length_append, List.length_take, List.length_drop]
  omega

/-! ## Lemmas on `Off` -/

theorem stored_eq_cells {e : Emitter} {event : String} {s : Slice}
    (h : e.listeners event = some s) : e.stored event = e.cells s := by
  simp [Emitter.stored, h]

theorem stored_of_absent {e : Emitter} {event : String}
    (h : e.listeners event = none) : e.stored event = [] := by
  simp [Emitter.stored, h]

theorem Off_absent {e : Emitter} {event : String} (listener : Listener)
    (h : e.listeners event = none) : Off e event listener = (e, some ErrEventNotRegistered) := by
  simp [Off, h]

theorem Off_no_match {e : Emitter} {event : String} {listener : Listener} {s : Slice}
    (h : e.listeners event = some s) (hs : scan listener.pointer (e.cells s) = none) :
    Off e event listener = (e, some ErrEventNotRegistered) := by
  simp [Off, h, hs]

theorem Off_match {e : Emitter} {event : String} {listener : Listener} {s : Slice} {i : Nat}
    (h : e.listeners event = some s) (hs : scan listener.pointer (e.cells s) = some i) :
    Off e event listener =
      (if s.len - 1 < 1 then
        ({ e with
            mem := Function.update e.mem s.ptr (shiftLeft (e.mem s.ptr) s.len i)
            listeners := Function.update e.listeners event none }, none)
      else
        ({ e with mem := Function.update e.mem s.ptr (shiftLeft (e.mem s.ptr) s.len i) },
          none)) := by
  simp only [Off, h, hs]

/-- The value `Off` returns: nil exactly when the scan finds an entry. -/
theorem Off_snd (e : Emitter) (event : String) (listener : Listener) :
    (Off e event listener).2 =
      if ∃ x ∈ e.stored event, x.pointer = listener.pointer then none
      else some ErrEventNotRegistered := by
  cases h : e.listeners event with
  | none => simp [Off_absent listener h, stored_of_absent h]
  | some s =>
    rw [stored_eq_cells h]
    cases hs : scan listener.pointer (e.cells s) with
    | none =>
      rw [Off_no_match h hs]
      have := scan_eq_none_iff.mp hs
      rw [if_neg]
      rintro ⟨x, hx, hp⟩
      exact this x hx hp
    | some i =>
      rw [Off_match h hs, if_pos (scan_isSome_iff.mp ⟨i, hs⟩)]
      split <;> rfl

/-- A failing `Off` changes nothing. -/
theorem Off_fst_of_error {e : Emitter} {event : String} {listener : Listener}
    (h : (Off e event listener).2 ≠ none) : (Off e event listener).1 = e := by
  cases hl : e.listeners event with
  | none => simp [Off_absent listener hl]
  | some s =>
    cases hs : scan listener.pointer (e.cells s) with
    | none => simp [Off_no_match hl hs]
    | some i =>
      rw [Off_match hl hs] at h
      split at h <;> simp at h

/-! ## Well-formedness is preserved -/

theorem WF_NewEmitter : NewEmitter.WF := by
  refine ⟨?_, ?_, ?_⟩ <;> intros <;> simp_all [NewEmitter]

theorem WF_closures {e : Emitter} (n : Nat) (h : e.WF) : { e with closures := n }.WF :=
  ⟨h.cap, h.lt, h.inj⟩

theorem WF_On (spare : Nat → Nat) {e : Emitter} (event : String) (listener : Listener)
    (h : e.WF) : (On spare e event listener).WF := by
  unfold On
  cases hl : e.listeners event with
  | none =>
    refine ⟨?_, ?_, ?_⟩
    · intro k s hk
      simp only [Function.update_apply] at hk ⊢
      split at hk
      · cases hk; simp
      · have := h.lt k s hk
        rw [if_neg (by omega)]
        exact h.cap k s hk
    · intro k s hk
      simp only [Function.update_apply] at hk ⊢
      split at hk
      · cases hk; simp
      · have := h.lt k s hk
        omega
    · intro k k2 s s2 hk hk2 hp
      simp only [Function.update_apply] at hk hk2
      split at hk <;> split at hk2
      · simp_all
      · cases hk
        have := h.lt k2 s2 hk2
        simp at hp; omega
      · cases hk2
        have := h.lt k s hk
        simp at hp; omega
      · exact h.inj k k2 s s2 hk hk2 hp
  | some ev =>
    have hcap := h.cap event ev hl
    have hlt := h.lt event ev hl
    simp only
    split
    · rename_i hroom
      refine ⟨?_, ?_, ?_⟩
      · intro k s hk
        simp only [Function.update_apply] at hk ⊢
        split at hk
        · cases hk; simp; omega
        · rename_i hne
          split
          · rename_i hp
            exact absurd (h.inj k event s ev hk hl hp) hne
          · exact h.cap k s hk
      · intro k s hk
        simp only [Function.update_apply] at hk ⊢
        split at hk
        · cases hk; exact hlt
        · exact h.lt k s hk
      · intro k k2 s s2 hk hk2 hp
        simp only [Function.update_apply] at hk hk2
        split at hk <;> split at hk2
        · simp_all
        · cases hk
          rename_i h1 h2
          rw [h1]
          exact (h.inj k2 event s2 ev hk2 hl hp.symm).symm
        · cases hk2
          rename_i h1 h2
          rw [h2]
          exact h.inj k event s ev hk hl hp
        · exact h.inj k k2 s s2 hk hk2 hp
    · rename_i hroom
      refine ⟨?_, ?_, ?_⟩
      · intro k s hk
        simp only [Function.update_apply] at hk ⊢
        split at hk
        · cases hk
          simp [Emitter.cells]
          omega
        · have := h.lt k s hk
          rw [if_neg (by omega)]
          exact h.cap k s hk
      · intro k s hk
        simp only [Function.update_apply] at hk ⊢
        split at hk
        · cases hk; simp
        · have := h.lt k s hk
          omega
      · intro k k2 s s2 hk hk2 hp
        simp only [Function.update_apply] at hk hk2
        split at hk <;> split at hk2
        · simp_all
        · cases hk
          have := h.lt k2 s2 hk2
          simp at hp; omega
        · cases hk2
          have := h.lt k s hk
          simp at hp; omega
        · exact h.inj k k2 s s2 hk hk2 hp

theorem WF_Once (spare : Nat → Nat) {e : Emitter} (event : String) (listener : Listener)
    (h : e.WF) : (Once spare e event listener).WF :=
  WF_On spare event _ (WF_closures _ h)

theorem WF_Off {e : Emitter} (event : String) (listener : Listener) (h : e.WF) :
    (Off e event listener).1.WF := by
  cases hl : e.listeners event with
  | none => rw [Off_absent listener hl]; exact h
  | some ev =>
    cases hs : scan listener.pointer (e.cells ev) with
    | none => rw [Off_no_match hl hs]; exact h
    | some i =>
      have hcap := h.cap event ev hl
      have hi : i < ev.len := by
        have := scan_lt hs
        simp [Emitter.cells] at this
        omega
      have hmem : ∀ k s, e.listeners k = some s →
          s.len ≤ (Function.update e.mem ev.ptr (shiftLeft (e.mem ev.ptr) ev.len i) s.ptr).length := by
        intro k s hk
        simp only [Function.update_apply]
        split
        · rename_i hp
          have hke := h.inj k event s ev hk hl hp
          subst hke
          rw [hl] at hk; cases hk
          rw [length_shiftLeft hi hcap]; exact hcap
        · exact h.cap k s hk
      rw [Off_match hl hs]
      split
      · refine ⟨?_, ?_, ?_⟩
        · intro k s hk
          simp only [Function.update_apply] at hk
          split at hk
          · simp at hk
          · exact hmem k s hk
        · intro k s hk
          simp only [Function.update_apply] at hk
          split at hk
          · simp at hk
          · exact h.lt k s hk
        · intro k k2 s s2 hk hk2 hp
          simp only [Function.update_apply] at hk hk2
          split at hk
          · simp at hk
          · split at hk2
            · simp at hk2
            · exact h.inj k k2 s s2 hk hk2 hp
      · exact ⟨hmem, h.lt, h.inj⟩

theorem WF_call {α : Type} (listener : Listener) (val : α) (r : Run α) (h : r.e.WF) :
    (call listener val r).e.WF := by
  induction listener generalizing r with
  | nil => exact h
  | fn code inst => exact h
  | wrapper event listener inst ih =>
    simp only [call]
    split
    · exact ih r h
    · exact WF_Off event _ (ih r h)

theorem WF_rangeCall {α : Type} (ptr : Nat) (val : α) (n i : Nat) (r : Run α) (h : r.e.WF) :
    (rangeCall ptr val n i r).e.WF := by
  induction n generalizing i r with
  | zero => exact h
  | succ n ih =>
    simp only [rangeCall]
    split
    · exact h
    · split
      · exact WF_call _ val r h
      · exact ih _ _ (WF_call _ val r h)

theorem WF_Emit {α : Type} {e : Emitter} (event : String) (val : α) (h : e.WF) :
    (Emit e event val).e.WF := by
  unfold Emit
  split
  · exact h
  · exact WF_rangeCall _ val _ 0 _ h

theorem WF_of_Reachable {e : Emitter} (h : Reachable e) : e.WF := by
  induction h with
  | new => exact WF_NewEmitter
  | afterOn spare e event listener _ ih => exact WF_On spare event listener ih
  | afterOnce spare e event listener _ ih => exact WF_Once spare event listener ih
  | afterOff e event listener _ ih => exact WF_Off event listener ih
  | afterEmit e event val _ ih => exact WF_Emit event val ih

/-! ## Lemmas on `On` -/

theorem take_succ_set {arr : List Listener} {n : Nat} (x : Listener) (h : n < arr.length) :
    (arr.set n x).take (n + 1) = arr.take n ++ [x] := by
  have h1 : (arr.set n x).take n = arr.take n := by
    apply List.ext_getElem?
    intro i
    rw [List.getElem?_take, List.getElem?_take]
    split
    · rw [List.getElem?_set_ne (by omega)]
    · rfl
  rw [List.take_succ, h1, List.getElem?_set_self h]
  rfl

theorem On_absent (spare : Nat → Nat) {e : Emitter} {event : String} (listener : Listener)
    (h : e.listeners event = none) :
    On spare e event listener =
      { e with
        mem := Function.update e.mem e.brk (listener :: List.replicate (spare 0) Listener.nil)
        brk := e.brk + 1
        listeners := Function.update e.listeners event (some ⟨e.brk, 1⟩) } := by
  simp only [On, h]

/-- After `On` the map holds a header for the event. -/
theorem hasKey_On (spare : Nat → Nat) (e : Emitter) (event : String) (listener : Listener) :
    (On spare e event listener).hasKey event = true := by
  unfold On Emitter.hasKey
  split
  · split <;> simp
  · simp

/-- The header `On` stores is one longer than the one it found. -/
theorem len_On (spare : Nat → Nat) (e : Emitter) (event : String) (listener : Listener) :
    ∃ s, (On spare e event listener).listeners event = some s ∧
      s.len = (match e.listeners event with | none => 0 | some s0 => s0.len) + 1 := by
  cases hl : e.listeners event with
  | none => simp [On, hl]
  | some ev =>
    simp only [On, hl]
    split <;> simp

/-- `On` appends to the stored sequence, provided the stored slice lies within
its backing array. -/
theorem stored_On (spare : Nat → Nat) {e : Emitter} (event : String) (listener : Listener)
    (hcap : ∀ s, e.listeners event = some s → s.len ≤ (e.mem s.ptr).length) :
    (On spare e event listener).stored event = e.stored event ++ [listener] := by
  cases hl : e.listeners event with
  | none =>
    rw [On_absent spare listener hl, stored_of_absent hl]
    simp [Emitter.stored, Emitter.cells]
  | some ev =>
    have hc := hcap ev hl
    rw [stored_eq_cells hl]
    simp only [On, hl]
    split
    · rename_i hroom
      simp only [Emitter.stored, Emitter.cells, Function.update_same]
      exact take_succ_set listener hroom
    · rename_i hroom
      simp only [Emitter.stored, Emitter.cells, Function.update_same]
      rw [List.append_cons]
      apply List.take_left'
      simp
      omega

theorem WF_OnAll (spare : Nat → Nat) {e : Emitter} (event : String) (ls : List Listener)
    (h : e.WF) : (OnAll spare e event ls).WF := by
  induction ls generalizing e with
  | nil => exact h
  | cons l ls ih => exact ih (WF_On spare event l h)

theorem stored_OnAll (spare : Nat → Nat) {e : Emitter} (event : String) (ls : List Listener)
    (h : e.WF) : (OnAll spare e event ls).stored event = e.stored event ++ ls := by
  induction ls generalizing e with
  | nil => simp [OnAll]
  | cons l ls ih =>
    simp only [OnAll]
    rw [ih (WF_On spare event l h), stored_On spare event l (h.cap event)]
    simp

theorem hasKey_OnAll (spare : Nat → Nat) (e : Emitter) (event : String) (ls : List Listener)
    (h : ls ≠ [] ∨ e.hasKey event = true) : (OnAll spare e event ls).hasKey event = true := by
  induction ls generalizing e with
  | nil => simpa using h
  | cons l ls ih => exact ih _ (Or.inr (hasKey_On spare e event l))

/-! ## Lemmas on `Emit` -/

theorem Emit_absent {α : Type} {e : Emitter} {event : String} (val : α)
    (h : e.listeners event = none) :
    Emit e event val = ⟨e, [], .returned (some ErrEventNotRegistered)⟩ := by
  simp only [Emit, h]

/-- The loop over cells that hold functions of the caller: each receives one
call, in the order of the cells, and the state is left as it was. -/
theorem rangeCall_fns {α : Type} (ptr : Nat) (val : α) (n i : Nat) (r : Run α)
    (hp : r.panicked = false)
    (hfn : ∀ l ∈ ((r.e.mem ptr).drop i).take n, l.isFn = true)
    (hlen : i + n ≤ (r.e.mem ptr).length) :
    rangeCall ptr val n i r =
      { r with calls := r.calls ++ (((r.e.mem ptr).drop i).take n).map (fun l => (l, val)) } := by
  induction n generalizing i r with
  | zero => simp [rangeCall]
  | succ n ih =>
    have hi : i < (r.e.mem ptr).length := by omega
    have hd : (r.e.mem ptr).drop i = (r.e.mem ptr)[i] :: (r.e.mem ptr).drop (i + 1) :=
      List.drop_eq_getElem_cons hi
    rw [hd] at hfn ⊢
    simp only [List.take_succ_cons, List.mem_cons, forall_eq_or_imp] at hfn
    simp only [rangeCall, List.getElem?_eq_getElem hi]
    cases hx : (r.e.mem ptr)[i] with
    | nil => rw [hx] at hfn; simp [Listener.isFn] at hfn
    | wrapper ev l k => rw [hx] at hfn; simp [Listener.isFn] at hfn
    | fn c k =>
      simp only [call, hp, Bool.false_eq_true, if_false]
      rw [ih (i + 1) ⟨r.e, r.calls ++ [(Listener.fn c k, val)], false⟩ rfl hfn.2
        (by simpa using (by omega : i + 1 + n ≤ (r.e.mem ptr).length))]
      simp [hp]

/-- `Emit` on an event whose stored entries are all functions of the caller. -/
theorem Emit_fns {α : Type} {e : Emitter} {event : String} (val : α) (hwf : e.WF)
    (hkey : e.hasKey event = true) (hfn : ∀ l ∈ e.stored event, l.isFn = true) :
    Emit e event val =
      ⟨e, (e.stored event).map (fun l => (l, val)), .returned none⟩ := by
  cases hl : e.listeners event with
  | none => simp [Emitter.hasKey, hl] at hkey
  | some s =>
    have hc := hwf.cap event s hl
    rw [stored_eq_cells hl] at hfn ⊢
    simp only [Emit, hl]
    rw [rangeCall_fns s.ptr val s.len 0 _ rfl (by simpa [Emitter.cells] using hfn)
      (by simpa using hc)]
    simp [Emitter.cells]

/-! ## A stored sequence with one entry -/

theorem header_of_stored_single {e : Emitter} {event : String} {x : Listener} (hwf : e.WF)
    (h : e.stored event = [x]) :
    ∃ s, e.listeners event = some s ∧ s.len = 1 ∧ (e.mem s.ptr)[0]? = some x := by
  cases hl : e.listeners event with
  | none => simp [stored_of_absent hl] at h
  | some s =>
    have hc := hwf.cap event s hl
    rw [stored_eq_cells hl, Emitter.cells] at h
    have hlen : s.len = 1 := by
      have := congrArg List.length h
      simp at this
      omega
    refine ⟨s, rfl, hlen, ?_⟩
    rw [hlen] at h
    have := congrArg (fun l => l[0]?) h
    simp only [List.getElem?_take_of_lt Nat.zero_lt_one] at this
    simpa using this

theorem header_of_stored_nil {e : Emitter} {event : String} (hwf : e.WF)
    (h : e.stored event = []) :
    ∀ s, e.listeners event = some s → s.len = 0 := by
  intro s hl
  have hc := hwf.cap event s hl
  rw [stored_eq_cells hl, Emitter.cells] at h
  have := congrArg List.length h
  simp only [List.length_take, List.length_nil] at this
  omega

/-- `Off` of the only entry deletes the key. -/
theorem Off_single {e : Emitter} {event : String} {x : Listener} (listener : Listener)
    (hwf : e.WF) (h : e.stored event = [x]) (hp : x.pointer = listener.pointer) :
    (Off e event listener).2 = none ∧ (Off e event listener).1.listeners event = none := by
  obtain ⟨s, hl, hlen, _⟩ := header_of_stored_single hwf h
  have hs : scan listener.pointer (e.cells s) = some 0 := by
    rw [← stored_eq_cells hl, h]
    simp [scan, hp]
  rw [Off_match hl hs, hlen]
  simp

/-- One call of the closure of `Once` whose listener is a function of the
caller: the function receives the call, then `Off` runs. -/
theorem call_wrapper_fn {α : Type} (event : String) (code inst k : Nat) (val : α) (r : Run α)
    (hp : r.panicked = false) :
    call (.wrapper event (.fn code inst) k) val r =
      { e := (Off r.e event (.wrapper event (.fn code inst) k)).1
        calls := r.calls ++ [(.fn code inst, val)]
        panicked := false } := by
  simp [call, hp]

/-- `Emit` on an event whose stored sequence is one closure of `Once` around a
function of the caller. -/
theorem Emit_single_wrapper {α : Type} {e : Emitter} {event : String} (ev : String)
    (code inst k : Nat) (val : α) (hwf : e.WF)
    (h : e.stored event = [.wrapper ev (.fn code inst) k]) :
    Emit e event val =
      ⟨(Off e ev (.wrapper ev (.fn code inst) k)).1, [(.fn code inst, val)], .returned none⟩ := by
  obtain ⟨s, hl, hlen, h0⟩ := header_of_stored_single hwf h
  simp only [Emit, hl, hlen, rangeCall, h0]
  rw [call_wrapper_fn ev code inst k val _ rfl]
  simp

/-! ## No key with an empty slice -/

theorem On_listeners_of_ne (spare : Nat → Nat) (e : Emitter) {event k : String}
    (listener : Listener) (h : k ≠ event) :
    (On spare e event listener).listeners k = e.listeners k := by
  unfold On
  split
  · split <;> simp [Function.update_apply, h]
  · simp [Function.update_apply, h]

theorem Off_listeners (e : Emitter) (event : String) (listener : Listener) (k : String) :
    (Off e event listener).1.listeners k = e.listeners k ∨
      (Off e event listener).1.listeners k = none := by
  cases hl : e.listeners event with
  | none => rw [Off_absent listener hl]; exact Or.inl rfl
  | some s =>
    cases hs : scan listener.pointer (e.cells s) with
    | none => rw [Off_no_match hl hs]; exact Or.inl rfl
    | some i =>
      rw [Off_match hl hs]
      split
      · simp only [Function.update_apply]
        split
        · exact Or.inr rfl
        · exact Or.inl rfl
      · exact Or.inl rfl

theorem len_pos_On (spare : Nat → Nat) {e : Emitter} (event : String) (listener : Listener)
    (h : ∀ k s, e.listeners k = some s → 1 ≤ s.len) :
    ∀ k s, (On spare e event listener).listeners k = some s → 1 ≤ s.len := by
  intro k s hk
  by_cases hke : k = event
  · subst hke
    obtain ⟨s1, h1, h2⟩ := len_On spare e k listener
    rw [h1] at hk
    cases hk
    omega
  · rw [On_listeners_of_ne spare e listener hke] at hk
    exact h k s hk

theorem len_pos_Off {e : Emitter} (event : String) (listener : Listener)
    (h : ∀ k s, e.listeners k = some s → 1 ≤ s.len) :
    ∀ k s, (Off e event listener).1.listeners k = some s → 1 ≤ s.len := by
  intro k s hk
  rcases Off_listeners e event listener k with h1 | h1
  · rw [h1] at hk; exact h k s hk
  · rw [h1] at hk; cases hk

theorem len_pos_call {α : Type} (listener : Listener) (val : α) (r : Run α)
    (h : ∀ k s, r.e.listeners k = some s → 1 ≤ s.len) :
    ∀ k s, (call listener val r).e.listeners k = some s → 1 ≤ s.len := by
  induction listener generalizing r with
  | nil => exact h
  | fn code inst => exact h
  | wrapper event listener inst ih =>
    simp only [call]
    split
    · exact ih r h
    · exact len_pos_Off event _ (ih r h)

theorem len_pos_rangeCall {α : Type} (ptr : Nat) (val : α) (n i : Nat) (r : Run α)
    (h : ∀ k s, r.e.listeners k = some s → 1 ≤ s.len) :
    ∀ k s, (rangeCall ptr val n i r).e.listeners k = some s → 1 ≤ s.len := by
  induction n generalizing i r with
  | zero => exact h
  | succ n ih =>
    simp only [rangeCall]
    split
    · exact h
    · split
      · exact len_pos_call _ val r h
      · exact ih _ _ (len_pos_call _ val r h)

theorem len_pos_Emit {α : Type} {e : Emitter} (event : String) (val : α)
    (h : ∀ k s, e.listeners k = some s → 1 ≤ s.len) :
    ∀ k s, (Emit e event val).e.listeners k = some s → 1 ≤ s.len := by
  unfold Emit
  split
  · exact h
  · exact len_pos_rangeCall _ val _ 0 _ h

theorem len_pos_of_Reachable {e : Emitter} (h : Reachable e) :
    ∀ k s, e.listeners k = some s → 1 ≤ s.len := by
  induction h with
  | new => intro k s hk; simp [NewEmitter] at hk
  | afterOn spare e event listener _ ih => exact len_pos_On spare event listener ih
  | afterOnce spare e event listener _ ih => exact len_pos_On spare event _ ih
  | afterOff e event listener _ ih => exact len_pos_Off event listener ih
  | afterEmit e event val _ ih => exact len_pos_Emit event val ih

/-! ## Lemmas on `Once` -/

/-- `Once` appends its closure to the stored sequence. -/
theorem stored_Once (spare : Nat → Nat) {e : Emitter} (event : String) (listener : Listener)
    (hcap : ∀ s, e.listeners event = some s → s.len ≤ (e.mem s.ptr).length) :
    (Once spare e event listener).stored event =
      e.stored event ++ [.wrapper event listener e.closures] :=
  stored_On spare (e := { e with closures := e.closures + 1 }) event _ hcap

/-! ## The claims -/

/-- C1: `Emit(event, val)` returns `ErrEventNotRegistered` exactly when `event`
is not a key of the map at the call; then no listener is called and the state
is left as it was.  The state `e` is arbitrary, so this holds whatever is
registered under other names. -/
theorem Emit_errEventNotRegistered_iff {α : Type} (e : Emitter) (event : String) (val : α) :
    ((Emit e event val).out = .returned (some ErrEventNotRegistered) ↔
      e.hasKey event = false) ∧
    (e.hasKey event = true ∨
      ((Emit e event val).calls = [] ∧ (Emit e event val).e = e)) := by
  cases hl : e.listeners event with
  | none => simp [Emit_absent val hl, Emitter.hasKey, hl]
  | some s =>
    simp only [Emit, Emitter.hasKey, hl]
    refine ⟨?_, Or.inl rfl⟩
    split <;> simp

/-- C2: after `On(event, l1)`, ..., `On(event, ln)` on a new emitter, with
`n ≥ 1` and every `li` a function of the caller, `Emit(event, val)` returns nil
and the calls it makes are `l1(val)`, ..., `ln(val)` in this order. -/
theorem Emit_calls_in_registration_order {α : Type} (spare : Nat → Nat) (event : String)
    (ls : List Listener) (val : α) (hne : ls ≠ []) (hfn : ∀ l ∈ ls, l.isFn = true) :
    (Emit (OnAll spare NewEmitter event ls) event val).out = .returned none ∧
    (Emit (OnAll spare NewEmitter event ls) event val).calls = ls.map (fun l => (l, val)) := by
  have hst : (OnAll spare NewEmitter event ls).stored event = ls := by
    rw [stored_OnAll spare event ls WF_NewEmitter]
    simp [Emitter.stored, NewEmitter]
  rw [Emit_fns val (WF_OnAll spare event ls WF_NewEmitter)
    (hasKey_OnAll spare _ event ls (Or.inl hne)) (by rw [hst]; exact hfn), hst]
  exact ⟨rfl, rfl⟩

/-- The statement of C2 at two functions registered on "foo". -/
theorem Emit_calls_in_registration_order_witness :
    [Listener.fn 1 0, Listener.fn 2 0] ≠ [] ∧
    (∀ l ∈ [Listener.fn 1 0, Listener.fn 2 0], l.isFn = true) ∧
    (Emit (OnAll goSpare NewEmitter "foo" [Listener.fn 1 0, Listener.fn 2 0]) "foo"
      (1 : Nat)).out = .returned none ∧
    (Emit (OnAll goSpare NewEmitter "foo" [Listener.fn 1 0, Listener.fn 2 0]) "foo"
      (1 : Nat)).calls = [(Listener.fn 1 0, 1), (Listener.fn 2 0, 1)] :=
  ⟨by decide, by decide,
    Emit_calls_in_registration_order goSpare "foo" [Listener.fn 1 0, Listener.fn 2 0] 1
      (by decide) (by decide)⟩

/-- C3: after `On(event, listener)` the sequence stored for `event` is the
previous one (empty if the key was absent) with `listener` appended at the end,
so it is longer by exactly one and the earlier entries keep their places.  `On`
has no error result. -/
theorem On_appends (spare : Nat → Nat) (e : Emitter) (event : String) (listener : Listener)
    (hwf : e.WF) :
    (On spare e event listener).stored event = e.stored event ++ [listener] ∧
    ((On spare e event listener).stored event).length = (e.stored event).length + 1 ∧
    (On spare e event listener).hasKey event = true := by
  have h := stored_On spare event listener (hwf.cap event)
  refine ⟨h, ?_, hasKey_On spare e event listener⟩
  rw [h]
  simp

/-- The statement of C3 at the state `onBar`, for a second listener on "bar". -/
theorem On_appends_witness :
    onBar.WF ∧
    (On goSpare onBar "bar" (.fn 2 0)).stored "bar" = onBar.stored "bar" ++ [.fn 2 0] ∧
    ((On goSpare onBar "bar" (.fn 2 0)).stored "bar").length
      = (onBar.stored "bar").length + 1 ∧
    (On goSpare onBar "bar" (.fn 2 0)).hasKey "bar" = true :=
  ⟨WF_On _ _ _ WF_NewEmitter,
    On_appends goSpare onBar "bar" (.fn 2 0) (WF_On _ _ _ WF_NewEmitter)⟩

/-- C4 (the code departs from the claim): with `noop` and `fun` registered on
"foo", `Off("foo", fun)` returns nil but the map keeps both entries, and the
next `Emit` calls both; `Off("foo", noop)` leaves the two entries `fun, fun`. -/
theorem Off_of_two_keeps_length :
    (Off (OnAll goSpare NewEmitter "foo" [.fn 1 0, .fn 2 0]) "foo" (.fn 2 0)).2 = none ∧
    (Off (OnAll goSpare NewEmitter "foo" [.fn 1 0, .fn 2 0]) "foo" (.fn 2 0)).1.stored "foo"
      = [.fn 1 0, .fn 2 0] ∧
    (Emit (Off (OnAll goSpare NewEmitter "foo" [.fn 1 0, .fn 2 0]) "foo" (.fn 2 0)).1 "foo"
      (7 : Nat)).calls = [(.fn 1 0, 7), (.fn 2 0, 7)] ∧
    (Off (OnAll goSpare NewEmitter "foo" [.fn 1 0, .fn 2 0]) "foo" (.fn 1 0)).1.stored "foo"
      = [.fn 2 0, .fn 2 0] := by
  decide

/-- C5: when `event` has no listeners, after `On(event, l)` and `Off(event, l)`
the `Off` has returned nil, `event` is not a key of the map, and `Emit(event,
val)` returns `ErrEventNotRegistered` and calls nothing.  The state `e` is
arbitrary otherwise, so other names may have listeners. -/
theorem On_then_Off_deletes_key {α : Type} (spare : Nat → Nat) (e : Emitter) (event : String)
    (l : Listener) (val : α) (hwf : e.WF) (hnone : e.stored event = []) :
    (Off (On spare e event l) event l).2 = none ∧
    (Off (On spare e event l) event l).1.hasKey event = false ∧
    (Emit (Off (On spare e event l) event l).1 event val).out =
      .returned (some ErrEventNotRegistered) ∧
    (Emit (Off (On spare e event l) event l).1 event val).calls = [] := by
  have hst : (On spare e event l).stored event = [l] := by
    rw [stored_On spare event l (hwf.cap event), hnone]
    rfl
  obtain ⟨h1, h2⟩ := Off_single l (WF_On spare event l hwf) hst rfl
  refine ⟨h1, by simp [Emitter.hasKey, h2], ?_, ?_⟩ <;> rw [Emit_absent val h2]

/-- The statement of C5 at the state `onBar` and the event "foo". -/
theorem On_then_Off_deletes_key_witness :
    onBar.WF ∧ onBar.stored "foo" = [] ∧
    (Off (On goSpare onBar "foo" (.fn 1 0)) "foo" (.fn 1 0)).2 = none ∧
    (Off (On goSpare onBar "foo" (.fn 1 0)) "foo" (.fn 1 0)).1.hasKey "foo" = false ∧
    (Emit (Off (On goSpare onBar "foo" (.fn 1 0)) "foo" (.fn 1 0)).1 "foo" (0 : Nat)).out =
      .returned (some ErrEventNotRegistered) ∧
    (Emit (Off (On goSpare onBar "foo" (.fn 1 0)) "foo" (.fn 1 0)).1 "foo" (0 : Nat)).calls
      = [] :=
  ⟨WF_On _ _ _ WF_NewEmitter, by decide,
    On_then_Off_deletes_key goSpare onBar "foo" (.fn 1 0) (0 : Nat)
      (WF_On _ _ _ WF_NewEmitter) (by decide)⟩

/-- C6 (as stated, refuted): with one closure of a function registered on
"foo", `Off` given another closure of the same function returns nil, although
no stored entry is identical to it. -/
theorem Off_nil_without_identical_entry :
    (Off (On goSpare NewEmitter "foo" (.fn 1 0)) "foo" (.fn 1 1)).2 = none ∧
    Listener.fn 1 1 ∉ (On goSpare NewEmitter "foo" (.fn 1 0)).stored "foo" := by
  decide

/-- C6 (amended): `Off(event, listener)` returns nil exactly when the sequence
stored for `event` holds an entry with the code pointer of `listener`; otherwise
it returns the error with the message "event not registered" and leaves the
state as it was.  `Off` on a new emitter fails, and `Off` of an entry stored at
any position returns nil. -/
theorem Off_nil_iff_pointer_match (e : Emitter) (event : String) (listener : Listener) :
    ((Off e event listener).2 = none ↔
      ∃ x ∈ e.stored event, x.pointer = listener.pointer) ∧
    ((Off e event listener).2 = none ∨
      ((Off e event listener).2 = some ErrEventNotRegistered ∧
        (Off e event listener).1 = e)) ∧
    ErrEventNotRegistered.msg = "event not registered" ∧
    (Off NewEmitter event listener).2 = some ErrEventNotRegistered ∧
    (∀ x ∈ e.stored event, (Off e event x).2 = none) := by
  refine ⟨?_, ?_, rfl, rfl, ?_⟩
  · rw [Off_snd]
    split <;> simp_all
  · by_cases h : (Off e event listener).2 = none
    · exact Or.inl h
    · refine Or.inr ⟨?_, Off_fst_of_error h⟩
      rw [Off_snd] at h ⊢
      split at h
      · exact absurd rfl h
      · rw [if_neg (by assumption)]
  · intro x hx
    rw [Off_snd, if_pos ⟨x, hx, rfl⟩]

/-- C7: when `event` has no listeners and `cb` is a function of the caller,
after `Once(event, cb)` the first `Emit(event, v1)` returns nil and calls `cb`
once, with `v1`; when it returns `event` is not a key of the map; the second
`Emit(event, v2)` returns `ErrEventNotRegistered` and calls nothing, so `cb`
has received one call in all. -/
theorem Once_fires_on_first_Emit_only {α : Type} (spare : Nat → Nat) (e : Emitter)
    (event : String) (code inst : Nat) (v1 v2 : α) (hwf : e.WF)
    (hnone : e.stored event = []) :
    (Emit (Once spare e event (.fn code inst)) event v1).out = .returned none ∧
    (Emit (Once spare e event (.fn code inst)) event v1).calls = [(.fn code inst, v1)] ∧
    (Emit (Once spare e event (.fn code inst)) event v1).e.hasKey event = false ∧
    (Emit (Emit (Once spare e event (.fn code inst)) event v1).e event v2).out =
      .returned (some ErrEventNotRegistered) ∧
    (Emit (Emit (Once spare e event (.fn code inst)) event v1).e event v2).calls = [] ∧
    (Emit (Once spare e event (.fn code inst)) event v1).calls ++
      (Emit (Emit (Once spare e event (.fn code inst)) event v1).e event v2).calls =
      [(.fn code inst, v1)] := by
  have hst : (Once spare e event (.fn code inst)).stored event =
      [.wrapper event (.fn code inst) e.closures] := by
    rw [stored_Once spare event _ (hwf.cap event), hnone]
    rfl
  have hwf1 := WF_Once spare event (.fn code inst) hwf
  obtain ⟨_, h2⟩ := Off_single (.wrapper event (.fn code inst) e.closures) hwf1 hst rfl
  rw [Emit_single_wrapper event code inst e.closures v1 hwf1 hst]
  simp only [Emit_absent v2 h2, Emitter.hasKey, h2]
  simp

/-- The statement of C7 at the state `onBar` and the event "foo". -/
theorem Once_fires_on_first_Emit_only_witness :
    onBar.WF ∧ onBar.stored "foo" = [] ∧
    (Emit (Once goSpare onBar "foo" (.fn 2 0)) "foo" (5 : Nat)).out = .returned none ∧
    (Emit (Once goSpare onBar "foo" (.fn 2 0)) "foo" (5 : Nat)).calls = [(.fn 2 0, 5)] ∧
    (Emit (Once goSpare onBar "foo" (.fn 2 0)) "foo" (5 : Nat)).e.hasKey "foo" = false ∧
    (Emit (Emit (Once goSpare onBar "foo" (.fn 2 0)) "foo" (5 : Nat)).e "foo" (6 : Nat)).out =
      .returned (some ErrEventNotRegistered) ∧
    (Emit (Emit (Once goSpare onBar "foo" (.fn 2 0)) "foo" (5 : Nat)).e "foo" (6 : Nat)).calls
      = [] ∧
    (Emit (Once goSpare onBar "foo" (.fn 2 0)) "foo" (5 : Nat)).calls ++
      (Emit (Emit (Once goSpare onBar "foo" (.fn 2 0)) "foo" (5 : Nat)).e "foo"
        (6 : Nat)).calls = [(.fn 2 0, 5)] :=
  ⟨WF_On _ _ _ WF_NewEmitter, by decide,
    Once_fires_on_first_Emit_only goSpare onBar "foo" 2 0 (5 : Nat) 6
      (WF_On _ _ _ WF_NewEmitter) (by decide)⟩

/-- C8 (the code departs from the claim): with `noop` registered on "foo",
after `Once("foo", cb)` the first `Emit` calls `noop` and `cb`, and the second
`Emit` calls `noop` and `cb` again: the closure of `Once` is still stored. -/
theorem Once_after_On_fires_again :
    (Emit (Once goSpare (On goSpare NewEmitter "foo" (.fn 1 0)) "foo" (.fn 2 0)) "foo"
      (1 : Nat)).calls = [(.fn 1 0, 1), (.fn 2 0, 1)] ∧
    (Emit (Emit (Once goSpare (On goSpare NewEmitter "foo" (.fn 1 0)) "foo" (.fn 2 0)) "foo"
      (1 : Nat)).e "foo" (2 : Nat)).calls = [(.fn 1 0, 2), (.fn 2 0, 2)] ∧
    (Emit (Once goSpare (On goSpare NewEmitter "foo" (.fn 1 0)) "foo" (.fn 2 0)) "foo"
      (1 : Nat)).e.stored "foo" = [.fn 1 0, .wrapper "foo" (.fn 2 0) 0] := by
  decide

/-- C9: in every state reachable from `NewEmitter()` by calls of `On`, `Once`,
`Off` and `Emit`, an event name is a key of the map exactly when the sequence
stored for it has at least one entry. -/
theorem key_iff_stored_nonempty (e : Emitter) (h : Reachable e) (event : String) :
    e.hasKey event = true ↔ 1 ≤ (e.stored event).length := by
  cases hl : e.listeners event with
  | none => simp [Emitter.hasKey, hl, stored_of_absent hl]
  | some s =>
    have h1 := len_pos_of_Reachable h event s hl
    have h2 := (WF_of_Reachable h).cap event s hl
    simp only [Emitter.hasKey, hl, stored_eq_cells hl, Emitter.cells, List.length_take,
      Option.isSome_some, true_iff]
    omega

/-- The statement of C9 at the state after `On`, `Once` and `Off` on "foo". -/
theorem key_iff_stored_nonempty_witness :
    Reachable (Off (Once goSpare (On goSpare NewEmitter "foo" (.fn 1 0)) "foo" (.fn 2 0))
      "foo" (.fn 1 0)).1 ∧
    ((Off (Once goSpare (On goSpare NewEmitter "foo" (.fn 1 0)) "foo" (.fn 2 0))
      "foo" (.fn 1 0)).1.hasKey "foo" = true ↔
      1 ≤ ((Off (Once goSpare (On goSpare NewEmitter "foo" (.fn 1 0)) "foo" (.fn 2 0))
        "foo" (.fn 1 0)).1.stored "foo").length) :=
  ⟨.afterOff _ _ _ (.afterOnce _ _ _ _ (.afterOn _ _ _ _ .new)),
    key_iff_stored_nonempty _
      (.afterOff _ _ _ (.afterOnce _ _ _ _ (.afterOn _ _ _ _ .new))) "foo"⟩

/-- C10 (the code departs from the claim): after `On("foo", a)`, `On("foo", b)`
on a new emitter, `Off("foo", a)` and `Off("foo", b)` both return nil, yet
"foo" is still a key, and `Emit("foo", val)` returns nil and calls `b` twice. -/
theorem Off_of_every_listener_keeps_key :
    (Off (OnAll goSpare NewEmitter "foo" [.fn 1 0, .fn 2 0]) "foo" (.fn 1 0)).2 = none ∧
    (Off (Off (OnAll goSpare NewEmitter "foo" [.fn 1 0, .fn 2 0]) "foo" (.fn 1 0)).1
      "foo" (.fn 2 0)).2 = none ∧
    (Off (Off (OnAll goSpare NewEmitter "foo" [.fn 1 0, .fn 2 0]) "foo" (.fn 1 0)).1
      "foo" (.fn 2 0)).1.hasKey "foo" = true ∧
    (Emit (Off (Off (OnAll goSpare NewEmitter "foo" [.fn 1 0, .fn 2 0]) "foo" (.fn 1 0)).1
      "foo" (.fn 2 0)).1 "foo" (7 : Nat)).out = .returned none ∧
    (Emit (Off (Off (OnAll goSpare NewEmitter "foo" [.fn 1 0, .fn 2 0]) "foo" (.fn 1 0)).1
      "foo" (.fn 2 0)).1 "foo" (7 : Nat)).calls = [(.fn 2 0, 7), (.fn 2 0, 7)] := by
  decide

/-- C11: when `event` has no listeners and `l` is a function of the caller,
after `On(event, l)` called twice one `Emit(event, val)` returns nil and calls
`l` twice, each time with `val`: both entries are stored. -/
theorem On_twice_calls_twice {α : Type} (spare : Nat → Nat) (e : Emitter) (event : String)
    (code inst : Nat) (val : α) (hwf : e.WF) (hnone : e.stored event = []) :
    (On spare (On spare e event (.fn code inst)) event (.fn code inst)).stored event =
      [.fn code inst, .fn code inst] ∧
    (Emit (On spare (On spare e event (.fn code inst)) event (.fn code inst)) event val).out =
      .returned none ∧
    (Emit (On spare (On spare e event (.fn code inst)) event (.fn code inst)) event val).calls =
      [(.fn code inst, val), (.fn code inst, val)] := by
  have hwf1 := WF_On spare event (.fn code inst) hwf
  have hwf2 := WF_On spare event (.fn code inst) hwf1
  have hst : (On spare (On spare e event (.fn code inst)) event (.fn code inst)).stored event =
      [.fn code inst, .fn code inst] := by
    rw [stored_On spare event _ (hwf1.cap event), stored_On spare event _ (hwf.cap event), hnone]
    rfl
  rw [Emit_fns val hwf2 (hasKey_On spare _ event _) (by rw [hst]; simp [Listener.isFn]), hst]
  exact ⟨rfl, rfl, rfl⟩

/-- The statement of C11 at the state `onBar` and the event "foo". -/
theorem On_twice_calls_twice_witness :
    onBar.WF ∧ onBar.stored "foo" = [] ∧
    (On goSpare (On goSpare onBar "foo" (.fn 2 0)) "foo" (.fn 2 0)).stored "foo" =
      [.fn 2 0, .fn 2 0] ∧
    (Emit (On goSpare (On goSpare onBar "foo" (.fn 2 0)) "foo" (.fn 2 0)) "foo" (7 : Nat)).out =
      .returned none ∧
    (Emit (On goSpare (On goSpare onBar "foo" (.fn 2 0)) "foo" (.fn 2 0)) "foo"
      (7 : Nat)).calls = [(.fn 2 0, 7), (.fn 2 0, 7)] :=
  ⟨WF_On _ _ _ WF_NewEmitter, by decide,
    On_twice_calls_twice goSpare onBar "foo" 2 0 (7 : Nat) (WF_On _ _ _ WF_NewEmitter)
      (by decide)⟩

/-- C12 (the code departs from the claim): after `Once("foo", callback)` called
twice on a new emitter, two closures are stored and one `Emit` calls `callback`
twice. -/
theorem Once_twice_calls_twice :
    (Once goSpare (Once goSpare NewEmitter "foo" (.fn 1 0)) "foo" (.fn 1 0)).stored "foo" =
      [.wrapper "foo" (.fn 1 0) 0, .wrapper "foo" (.fn 1 0) 1] ∧
    (Emit (Once goSpare (Once goSpare NewEmitter "foo" (.fn 1 0)) "foo" (.fn 1 0)) "foo"
      (0 : Nat)).out = .returned none ∧
    (Emit (Once goSpare (Once goSpare NewEmitter "foo" (.fn 1 0)) "foo" (.fn 1 0)) "foo"
      (0 : Nat)).calls = [(.fn 1 0, 0), (.fn 1 0, 0)] := by
  decide

/-- C13 (the code departs from the claim): after `On("foo", nil)` and
`Once("bar", nil)` on a new emitter both names are keys of the map, `Emit("foo",
val)` panics on the call of the nil function, and so does `Emit("bar", val)`
inside the closure of `Once`; neither returns an error. -/
theorem nil_listener_is_stored_and_panics :
    (Once goSpare (On goSpare NewEmitter "foo" .nil) "bar" .nil).stored "foo" = [.nil] ∧
    (Once goSpare (On goSpare NewEmitter "foo" .nil) "bar" .nil).stored "bar" =
      [.wrapper "bar" .nil 0] ∧
    (Emit (Once goSpare (On goSpare NewEmitter "foo" .nil) "bar" .nil) "foo" (0 : Nat)).out =
      .panic ∧
    (Emit (Once goSpare (On goSpare NewEmitter "foo" .nil) "bar" .nil) "bar" (0 : Nat)).out =
      .panic ∧
    (Emit (Emit (Once goSpare (On goSpare NewEmitter "foo" .nil) "bar" .nil) "foo"
      (0 : Nat)).e "bar" (0 : Nat)).out = .panic := by
  decide

/-- C14 (the code departs from the claim): after `On("foo", nil)` on a new
emitter the nil listener is stored and "foo" is a key, but `Emit("foo", val)`
does not complete: the call of the nil function panics, so it does not return
nil.  With a listener stored before the nil one, on "bar" in the state `onBar`,
`Emit` calls that listener and then panics. -/
theorem Emit_of_nil_listener_panics :
    (On goSpare NewEmitter "foo" .nil).stored "foo" = [.nil] ∧
    (On goSpare NewEmitter "foo" .nil).hasKey "foo" = true ∧
    (Emit (On goSpare NewEmitter "foo" .nil) "foo" (0 : Nat)).out = .panic ∧
    (Emit (On goSpare NewEmitter "foo" .nil) "foo" (0 : Nat)).out ≠ .returned none ∧
    (On goSpare onBar "bar" .nil).stored "bar" = [.fn 1 0, .nil] ∧
    (Emit (On goSpare onBar "bar" .nil) "bar" (0 : Nat)).calls = [(.fn 1 0, 0)] ∧
    (Emit (On goSpare onBar "bar" .nil) "bar" (0 : Nat)).out = .panic := by
  decide

/-- C15 (as stated, refuted): `Off` on a new emitter fails with
`ErrEventNotRegistered`, the very error `Emit` returns for a name without
listeners; no other error exists. -/
theorem Off_fails_with_the_error_of_Emit :
    (Off NewEmitter "foo" (.fn 1 0)).2 = some ErrEventNotRegistered ∧
    (Emit NewEmitter "foo" (0 : Nat)).out = .returned (Off NewEmitter "foo" (.fn 1 0)).2 := by
  decide

/-- C15 (amended): there is one error: whenever `Off(event, listener)` fails,
the error it returns is `ErrEventNotRegistered`, with the message "event not
registered", the same value `Emit` returns for a name that is not a key. -/
theorem Off_error_is_ErrEventNotRegistered {α : Type} (e : Emitter) (event : String)
    (listener : Listener) (e2 : Emitter) (event2 : String) (val : α)
    (hoff : (Off e event listener).2 ≠ none) (hkey : e2.hasKey event2 = false) :
    (Off e event listener).2 = some ErrEventNotRegistered ∧
    (Emit e2 event2 val).out = .returned (Off e event listener).2 ∧
    ErrEventNotRegistered.msg = "event not registered" := by
  have h1 : (Off e event listener).2 = some ErrEventNotRegistered := by
    rw [Off_snd] at hoff ⊢
    split at hoff
    · exact absurd rfl hoff
    · rw [if_neg (by assumption)]
  have h2 : e2.listeners event2 = none := by
    simpa [Emitter.hasKey] using hkey
  rw [h1, Emit_absent val h2]
  exact ⟨rfl, rfl, rfl⟩

/-- The statement of C15, as amended, at `Off("foo", l)` on the state `onBar`,
where `l` is registered on "bar" only, and `Emit("foo", 0)` on a new emitter. -/
theorem Off_error_is_ErrEventNotRegistered_witness :
    (Off onBar "foo" (.fn 1 0)).2 ≠ none ∧ NewEmitter.hasKey "foo" = false ∧
    (Off onBar "foo" (.fn 1 0)).2 = some ErrEventNotRegistered ∧
    (Emit NewEmitter "foo" (0 : Nat)).out = .returned (Off onBar "foo" (.fn 1 0)).2 ∧
    ErrEventNotRegistered.msg = "event not registered" :=
  ⟨by decide, by decide,
    Off_error_is_ErrEventNotRegistered onBar "foo" (.fn 1 0) NewEmitter "foo" (0 : Nat)
      (by decide) (by decide)⟩

/-- C16: when `event` has no listeners and `cb` is a function of the caller
registered through `Once(event, cb)` only, `Off(event, cb)` fails with
`ErrEventNotRegistered` and leaves the state as it was, and the next
`Emit(event, val)` still calls `cb`. -/
theorem Off_of_once_listener_fails {α : Type} (spare : Nat → Nat) (e : Emitter)
    (event : String) (code inst : Nat) (val : α) (hwf : e.WF)
    (hnone : e.stored event = []) :
    (Off (Once spare e event (.fn code inst)) event (.fn code inst)).2 =
      some ErrEventNotRegistered ∧
    (Off (Once spare e event (.fn code inst)) event (.fn code inst)).1 =
      Once spare e event (.fn code inst) ∧
    (Emit (Off (Once spare e event (.fn code inst)) event (.fn code inst)).1 event val).calls =
      [(.fn code inst, val)] := by
  have hst : (Once spare e event (.fn code inst)).stored event =
      [.wrapper event (.fn code inst) e.closures] := by
    rw [stored_Once spare event _ (hwf.cap event), hnone]
    rfl
  have hwf1 := WF_Once spare event (.fn code inst) hwf
  have h1 : (Off (Once spare e event (.fn code inst)) event (.fn code inst)).2 =
      some ErrEventNotRegistered := by
    rw [Off_snd, hst]
    simp [Listener.pointer]
  have h2 : (Off (Once spare e event (.fn code inst)) event (.fn code inst)).1 =
      Once spare e event (.fn code inst) :=
    Off_fst_of_error (by rw [h1]; simp)
  refine ⟨h1, h2, ?_⟩
  rw [h2, Emit_single_wrapper event code inst e.closures val hwf1 hst]

/-- The statement of C16 at the state `onBar` and the event "foo". -/
theorem Off_of_once_listener_fails_witness :
    onBar.WF ∧ onBar.stored "foo" = [] ∧
    (Off (Once goSpare onBar "foo" (.fn 2 0)) "foo" (.fn 2 0)).2 =
      some ErrEventNotRegistered ∧
    (Off (Once goSpare onBar "foo" (.fn 2 0)) "foo" (.fn 2 0)).1 =
      Once goSpare onBar "foo" (.fn 2 0) ∧
    (Emit (Off (Once goSpare onBar "foo" (.fn 2 0)) "foo" (.fn 2 0)).1 "foo" (7 : Nat)).calls =
      [(.fn 2 0, 7)] :=
  ⟨WF_On _ _ _ WF_NewEmitter, by decide,
    Off_of_once_listener_fails goSpare onBar "foo" 2 0 (7 : Nat) (WF_On _ _ _ WF_NewEmitter)
      (by decide)⟩

/-- C17 (the code departs from the claim): with the closure of `Once("foo", a)`
followed by `b` and `c` stored on "foo", one `Emit` calls `a`, then `c`, then
`c` again; `b` is not called. -/
theorem Emit_skips_after_once_listener :
    (On goSpare (On goSpare (Once goSpare NewEmitter "foo" (.fn 1 0)) "foo" (.fn 2 0)) "foo"
      (.fn 3 0)).stored "foo" = [.wrapper "foo" (.fn 1 0) 0, .fn 2 0, .fn 3 0] ∧
    (Emit (On goSpare (On goSpare (Once goSpare NewEmitter "foo" (.fn 1 0)) "foo" (.fn 2 0))
      "foo" (.fn 3 0)) "foo" (7 : Nat)).calls = [(.fn 1 0, 7), (.fn 3 0, 7), (.fn 3 0, 7)] ∧
    (Emit (On goSpare (On goSpare (Once goSpare NewEmitter "foo" (.fn 1 0)) "foo" (.fn 2 0))
      "foo" (.fn 3 0)) "foo" (7 : Nat)).out = .returned none := by
  decide

/-! ## The stored sequence after a successful `Off` -/

theorem shiftLeft_append (L R : List Listener) {i : Nat} (hi : i < L.length) :
    shiftLeft (L ++ R) L.length i =
      (L.take i ++ (L.drop (i + 1) ++ L.drop (L.length - 1))) ++ R := by
  unfold shiftLeft
  rw [List.take_append_of_le_length (by omega), List.drop_append_of_le_length (by omega),
    List.drop_append_of_le_length (by omega)]
  have h1 : List.take (L.length - (i + 1)) (List.drop (i + 1) L ++ R) = List.drop (i + 1) L := by
    apply List.take_left'
    simp
  rw [h1]
  simp

theorem take_shiftLeft {arr : List Listener} {len i : Nat} (hi : i < len)
    (hlen : len ≤ arr.length) :
    (shiftLeft arr len i).take len =
      (arr.take len).take i ++
        ((arr.take len).drop (i + 1) ++ (arr.take len).drop (len - 1)) := by
  have hL : (arr.take len).length = len := by simp; omega
  have h := shiftLeft_append (arr.take len) (arr.drop len) (i := i) (by omega)
  rw [List.take_append_drop, hL] at h
  rw [h]
  apply List.take_left'
  simp only [List.length_append, List.length_take, List.length_drop]
  omega

theorem len_eq_length_stored {e : Emitter} {event : String} {s : Slice} (hwf : e.WF)
    (hl : e.listeners event = some s) : (e.stored event).length = s.len := by
  have := hwf.cap event s hl
  rw [stored_eq_cells hl, Emitter.cells, List.length_take]
  omega

/-- The array of the event after a successful `Off`. -/
theorem Off_mem_self {e : Emitter} {event : String} {listener : Listener} {s : Slice} {i : Nat}
    (hl : e.listeners event = some s) (hs : scan listener.pointer (e.cells s) = some i) :
    (Off e event listener).1.mem s.ptr = shiftLeft (e.mem s.ptr) s.len i := by
  rw [Off_match hl hs]
  split <;> simp

/-- A successful `Off` on a slice of two or more cells keeps the header. -/
theorem Off_listeners_self {e : Emitter} {event : String} {listener : Listener} {s : Slice}
    {i : Nat} (hl : e.listeners event = some s)
    (hs : scan listener.pointer (e.cells s) = some i) (h2 : 2 ≤ s.len) :
    (Off e event listener).1.listeners event = some s := by
  rw [Off_match hl hs, if_neg (by omega)]
  exact hl

/-- The stored sequence after a successful `Off` on two or more entries. -/
theorem stored_Off_of_match {e : Emitter} {event : String} {listener : Listener} {i : Nat}
    (hwf : e.WF) (hs : scan listener.pointer (e.stored event) = some i)
    (h2 : 2 ≤ (e.stored event).length) :
    (Off e event listener).1.stored event =
      (e.stored event).take i ++
        ((e.stored event).drop (i + 1) ++
          (e.stored event).drop ((e.stored event).length - 1)) := by
  cases hl : e.listeners event with
  | none => simp [stored_of_absent hl] at h2
  | some s =>
    have hlen := len_eq_length_stored hwf hl
    have hcap := hwf.cap event s hl
    rw [stored_eq_cells hl] at hs
    have hi : i < s.len := by
      have := scan_lt hs
      rw [← stored_eq_cells hl, hlen] at this
      exact this
    rw [stored_eq_cells (Off_listeners_self hl hs (by omega)), Emitter.cells,
      Off_mem_self hl hs, take_shiftLeft hi hcap, hlen, stored_eq_cells hl, Emitter.cells]

/-- C19: when the sequence stored for `event` has its first entry matching
`listener` at index `i`, `Off(event, listener)` returns nil, and either the
sequence has two or more entries, and then `event` stays a key with a sequence
of the same length: the old one with the entries after `i` moved one place to
the left and the old last entry repeated at the end (unchanged when `i` is the
last index); or it has one entry, and then the key is deleted. -/
theorem Off_shifts_and_keeps_length (e : Emitter) (event : String) (listener : Listener)
    (i : Nat) (hwf : e.WF) (hi : scan listener.pointer (e.stored event) = some i) :
    (Off e event listener).2 = none ∧
    ((2 ≤ (e.stored event).length ∧
        (Off e event listener).1.hasKey event = true ∧
        (Off e event listener).1.stored event =
          (e.stored event).take i ++ (e.stored event).drop (i + 1) ++
            (e.stored event).drop ((e.stored event).length - 1) ∧
        ((Off e event listener).1.stored event).length = (e.stored event).length ∧
        (i + 1 < (e.stored event).length ∨
          (Off e event listener).1.stored event = e.stored event)) ∨
      ((e.stored event).length = 1 ∧ (Off e event listener).1.hasKey event = false)) := by
  have hlt := scan_lt hi
  have hnil : (Off e event listener).2 = none := by
    rw [Off_snd, if_pos (scan_isSome_iff.mp ⟨i, hi⟩)]
  refine ⟨hnil, ?_⟩
  by_cases h2 : 2 ≤ (e.stored event).length
  · left
    have hst := stored_Off_of_match hwf hi h2
    cases hl : e.listeners event with
    | none => simp [stored_of_absent hl] at h2
    | some s =>
      have hlen := len_eq_length_stored hwf hl
      have hs : scan listener.pointer (e.cells s) = some i := by
        rw [← stored_eq_cells hl]; exact hi
      have hkey : (Off e event listener).1.hasKey event = true := by
        simp [Emitter.hasKey, Off_listeners_self hl hs (by omega)]
      have hlen2 : ((Off e event listener).1.stored event).length = (e.stored event).length := by
        rw [hst]
        simp only [List.length_append, List.length_take, List.length_drop]
        omega
      refine ⟨h2, hkey, by rw [hst, List.append_assoc], hlen2, ?_⟩
      by_cases hlast : i + 1 < (e.stored event).length
      · exact Or.inl hlast
      · right
        have hi1 : (e.stored event).length - 1 = i := by omega
        have hd : (e.stored event).drop (i + 1) = [] :=
          List.drop_eq_nil_of_le (by omega)
        rw [hst, hi1, hd, List.nil_append, List.take_append_drop]
  · right
    have h1 : (e.stored event).length = 1 := by omega
    refine ⟨h1, ?_⟩
    obtain ⟨x, hx⟩ := List.length_eq_one.mp h1
    have hp : x.pointer = listener.pointer := by
      rw [hx] at hi
      simp only [scan] at hi
      split at hi
      · simp [scan] at hi
      · rename_i hne
        simpa using hne
    simp [Emitter.hasKey, (Off_single listener hwf hx hp).2]

/-- The statement of C19 at the state `onFoo` and `Off` of its first listener:
the stored sequence becomes the second, the third and the third listener. -/
theorem Off_shifts_and_keeps_length_witness :
    onFoo.WF ∧ scan (Listener.fn 1 0).pointer (onFoo.stored "foo") = some 0 ∧
    (Off onFoo "foo" (.fn 1 0)).2 = none ∧
    ((2 ≤ (onFoo.stored "foo").length ∧
        (Off onFoo "foo" (.fn 1 0)).1.hasKey "foo" = true ∧
        (Off onFoo "foo" (.fn 1 0)).1.stored "foo" =
          (onFoo.stored "foo").take 0 ++ (onFoo.stored "foo").drop (0 + 1) ++
            (onFoo.stored "foo").drop ((onFoo.stored "foo").length - 1) ∧
        ((Off onFoo "foo" (.fn 1 0)).1.stored "foo").length = (onFoo.stored "foo").length ∧
        (0 + 1 < (onFoo.stored "foo").length ∨
          (Off onFoo "foo" (.fn 1 0)).1.stored "foo" = onFoo.stored "foo")) ∨
      ((onFoo.stored "foo").length = 1 ∧ (Off onFoo "foo" (.fn 1 0)).1.hasKey "foo" = false)) ∧
    (Off onFoo "foo" (.fn 1 0)).1.stored "foo" = [.fn 2 0, .fn 3 0, .fn 3 0] :=
  ⟨WF_OnAll _ _ _ WF_NewEmitter, by decide,
    (Off_shifts_and_keeps_length onFoo "foo" (.fn 1 0) 0 (WF_OnAll _ _ _ WF_NewEmitter)
      (by decide)).1,
    (Off_shifts_and_keeps_length onFoo "foo" (.fn 1 0) 0 (WF_OnAll _ _ _ WF_NewEmitter)
      (by decide)).2,
    by decide⟩

/-! ## Other events -/

theorem Off_listeners_of_ne (e : Emitter) {event k : String} (listener : Listener)
    (h : k ≠ event) : (Off e event listener).1.listeners k = e.listeners k := by
  cases hl : e.listeners event with
  | none => rw [Off_absent listener hl]
  | some s =>
    cases hs : scan listener.pointer (e.cells s) with
    | none => rw [Off_no_match hl hs]
    | some i =>
      rw [Off_match hl hs]
      split
      · simp [Function.update_apply, h]
      · rfl

/-- `On` does not write to the array of another key. -/
theorem On_mem_of_ne (spare : Nat → Nat) {e : Emitter} {event k : String} {sk : Slice}
    (listener : Listener) (hwf : e.WF) (h : k ≠ event) (hk : e.listeners k = some sk) :
    (On spare e event listener).mem sk.ptr = e.mem sk.ptr := by
  have hlt := hwf.lt k sk hk
  cases hl : e.listeners event with
  | none =>
    rw [On_absent spare listener hl]
    simp only [Function.update_apply]
    rw [if_neg (by omega)]
  | some s =>
    have hp : sk.ptr ≠ s.ptr := fun hp => h (hwf.inj k event sk s hk hl hp)
    simp only [On, hl]
    split
    · simp only [Function.update_apply]
      rw [if_neg hp]
    · simp only [Function.update_apply]
      rw [if_neg (by omega)]

/-- `Off` does not write to the array of another key. -/
theorem Off_mem_of_ne {e : Emitter} {event k : String} {sk : Slice}
    (listener : Listener) (hwf : e.WF) (h : k ≠ event) (hk : e.listeners k = some sk) :
    (Off e event listener).1.mem sk.ptr = e.mem sk.ptr := by
  cases hl : e.listeners event with
  | none => rw [Off_absent listener hl]
  | some s =>
    have hp : sk.ptr ≠ s.ptr := fun hp => h (hwf.inj k event sk s hk hl hp)
    cases hs : scan listener.pointer (e.cells s) with
    | none => rw [Off_no_match hl hs]
    | some i =>
      rw [Off_match hl hs]
      split <;> simp [Function.update_apply, hp]

theorem stored_On_of_ne (spare : Nat → Nat) {e : Emitter} {event k : String}
    (listener : Listener) (hwf : e.WF) (h : k ≠ event) :
    (On spare e event listener).stored k = e.stored k := by
  have hl := On_listeners_of_ne spare e listener h
  cases hk : e.listeners k with
  | none =>
    rw [hk] at hl
    rw [stored_of_absent hl, stored_of_absent hk]
  | some sk =>
    rw [hk] at hl
    rw [stored_eq_cells hl, stored_eq_cells hk, Emitter.cells, Emitter.cells,
      On_mem_of_ne spare listener hwf h hk]

theorem stored_Off_of_ne {e : Emitter} {event k : String}
    (listener : Listener) (hwf : e.WF) (h : k ≠ event) :
    (Off e event listener).1.stored k = e.stored k := by
  have hl := Off_listeners_of_ne e listener h
  cases hk : e.listeners k with
  | none =>
    rw [hk] at hl
    rw [stored_of_absent hl, stored_of_absent hk]
  | some sk =>
    rw [hk] at hl
    rw [stored_eq_cells hl, stored_eq_cells hk, Emitter.cells, Emitter.cells,
      Off_mem_of_ne listener hwf h hk]

/-- C20: for two different event names `event` and `f`, `On(event, l)`,
`Once(event, l)` and `Off(event, l)`, whether it succeeds or fails, leave the
sequence stored for `f` and the presence of the key `f` as they were.  Names
are compared with the equality of strings. -/
theorem other_event_untouched (spare : Nat → Nat) (e : Emitter) (event f : String)
    (l : Listener) (hwf : e.WF) (hne : event ≠ f) :
    (On spare e event l).stored f = e.stored f ∧
    (On spare e event l).hasKey f = e.hasKey f ∧
    (Once spare e event l).stored f = e.stored f ∧
    (Once spare e event l).hasKey f = e.hasKey f ∧
    (Off e event l).1.stored f = e.stored f ∧
    (Off e event l).1.hasKey f = e.hasKey f := by
  have h : f ≠ event := fun h => hne h.symm
  refine ⟨stored_On_of_ne spare l hwf h, ?_, ?_, ?_, stored_Off_of_ne l hwf h, ?_⟩
  · simp only [Emitter.hasKey, On_listeners_of_ne spare e l h]
  · exact stored_On_of_ne spare (e := { e with closures := e.closures + 1 }) _
      (WF_closures _ hwf) h
  · simp only [Emitter.hasKey, Once, On_listeners_of_ne spare _ _ h]
  · simp only [Emitter.hasKey, Off_listeners_of_ne e l h]

/-- The statement of C20 at the state `onBar`, for calls on "foo" and "bar" as
the other name. -/
theorem other_event_untouched_witness :
    onBar.WF ∧ "foo" ≠ "bar" ∧
    (On goSpare onBar "foo" (.fn 2 0)).stored "bar" = onBar.stored "bar" ∧
    (On goSpare onBar "foo" (.fn 2 0)).hasKey "bar" = onBar.hasKey "bar" ∧
    (Once goSpare onBar "foo" (.fn 2 0)).stored "bar" = onBar.stored "bar" ∧
    (Once goSpare onBar "foo" (.fn 2 0)).hasKey "bar" = onBar.hasKey "bar" ∧
    (Off onBar "foo" (.fn 2 0)).1.stored "bar" = onBar.stored "bar" ∧
    (Off onBar "foo" (.fn 2 0)).1.hasKey "bar" = onBar.hasKey "bar" :=
  ⟨WF_On _ _ _ WF_NewEmitter, by decide,
    other_event_untouched goSpare onBar "foo" "bar" (.fn 2 0) (WF_On _ _ _ WF_NewEmitter)
      (by decide)⟩

/-! ## Two closures of `Once` on one event -/

theorem closures_On (spare : Nat → Nat) (e : Emitter) (event : String) (listener : Listener) :
    (On spare e event listener).closures = e.closures := by
  unfold On
  split
  · split <;> rfl
  · rfl

/-- `Emit` on an event whose stored sequence is two closures of `Once` around
functions of the caller: the second closure is still in the second cell when
its turn comes. -/
theorem Emit_two_wrappers {α : Type} {e : Emitter} {event : String}
    (ca ia ka cb ib kb : Nat) (val : α) (hwf : e.WF)
    (h : e.stored event = [.wrapper event (.fn ca ia) ka, .wrapper event (.fn cb ib) kb]) :
    (Emit e event val).out = .returned none ∧
    (Emit e event val).calls = [(.fn ca ia, val), (.fn cb ib, val)] := by
  cases hl : e.listeners event with
  | none => simp [stored_of_absent hl] at h
  | some s =>
    have hlen : s.len = 2 := by
      rw [← len_eq_length_stored hwf hl, h]; rfl
    have hcells : e.cells s =
        [.wrapper event (.fn ca ia) ka, .wrapper event (.fn cb ib) kb] := by
      rw [← stored_eq_cells hl]; exact h
    have harr : e.mem s.ptr =
        [.wrapper event (.fn ca ia) ka, .wrapper event (.fn cb ib) kb] ++
          (e.mem s.ptr).drop 2 := by
      have := List.take_append_drop 2 (e.mem s.ptr)
      rw [Emitter.cells, hlen] at hcells
      rw [hcells] at this
      exact this.symm
    have hs : scan (Listener.wrapper event (.fn ca ia) ka).pointer (e.cells s) = some 0 := by
      rw [hcells]; simp [scan, Listener.pointer]
    have h0 : (e.mem s.ptr)[0]? = some (.wrapper event (.fn ca ia) ka) := by
      rw [harr]; rfl
    have hm := Off_mem_self hl hs
    have h1 : ((Off e event (.wrapper event (.fn ca ia) ka)).1.mem s.ptr)[1]? =
        some (.wrapper event (.fn cb ib) kb) := by
      rw [hm, hlen, harr]
      have := shiftLeft_append
        [Listener.wrapper event (.fn ca ia) ka, Listener.wrapper event (.fn cb ib) kb]
        ((e.mem s.ptr).drop 2) (i := 0) (by simp)
      simp only [List.length_cons, List.length_nil] at this
      rw [this]
      simp
    simp only [Emit, hl, hlen, rangeCall, h0]
    rw [call_wrapper_fn event ca ia ka val _ rfl]
    simp only [Bool.false_eq_true, if_false, h1]
    rw [call_wrapper_fn event cb ib kb val _ rfl]
    simp

/-- C18 (as stated, refuted): with the closures of `Once("foo", a)` and
`Once("foo", b)` stored, the scan of `Off` for the second closure stops at
index 0, the entry of the first; and after one `Emit` "foo" is still a key, so
the next `Emit` returns nil. -/
theorem Off_of_second_closure_matches_first :
    scan (Listener.wrapper "foo" (.fn 2 0) 1).pointer
      ((Once goSpare (Once goSpare NewEmitter "foo" (.fn 1 0)) "foo" (.fn 2 0)).stored "foo")
      = some 0 ∧
    (Off (Once goSpare (Once goSpare NewEmitter "foo" (.fn 1 0)) "foo" (.fn 2 0)) "foo"
      (.wrapper "foo" (.fn 2 0) 1)).1.stored "foo" =
      [.wrapper "foo" (.fn 2 0) 1, .wrapper "foo" (.fn 2 0) 1] ∧
    (Emit (Once goSpare (Once goSpare NewEmitter "foo" (.fn 1 0)) "foo" (.fn 2 0)) "foo"
      (1 : Nat)).e.hasKey "foo" = true ∧
    (Emit (Emit (Once goSpare (Once goSpare NewEmitter "foo" (.fn 1 0)) "foo" (.fn 2 0)) "foo"
      (1 : Nat)).e "foo" (2 : Nat)).out = .returned none := by
  decide

/-- C18 (amended): `Off` compares code pointers, not instances: when `event`
has no listeners, after `Once(event, a)` and `Once(event, b)` the two closures
are stored in this order, `Off` given the second closure matches the first
entry (index 0; the stored sequence becomes the second closure twice), and one
`Emit` returns nil having called `a` once and then `b` once. -/
theorem Once_pair_fires_in_order {α : Type} (spare : Nat → Nat) (e : Emitter)
    (event : String) (ca ia cb ib : Nat) (val : α) (hwf : e.WF)
    (hnone : e.stored event = []) :
    (Once spare (Once spare e event (.fn ca ia)) event (.fn cb ib)).stored event =
      [.wrapper event (.fn ca ia) e.closures, .wrapper event (.fn cb ib) (e.closures + 1)] ∧
    scan (Listener.wrapper event (.fn cb ib) (e.closures + 1)).pointer
      ((Once spare (Once spare e event (.fn ca ia)) event (.fn cb ib)).stored event) = some 0 ∧
    (Off (Once spare (Once spare e event (.fn ca ia)) event (.fn cb ib)) event
      (.wrapper event (.fn cb ib) (e.closures + 1))).1.stored event =
      [.wrapper event (.fn cb ib) (e.closures + 1),
        .wrapper event (.fn cb ib) (e.closures + 1)] ∧
    (Emit (Once spare (Once spare e event (.fn ca ia)) event (.fn cb ib)) event val).out =
      .returned none ∧
    (Emit (Once spare (Once spare e event (.fn ca ia)) event (.fn cb ib)) event val).calls =
      [(.fn ca ia, val), (.fn cb ib, val)] := by
  have hwf1 := WF_Once spare event (.fn ca ia) hwf
  have hwf2 := WF_Once spare event (.fn cb ib) hwf1
  have hc : (Once spare e event (.fn ca ia)).closures = e.closures + 1 := by
    simp only [Once, closures_On]
  have hst : (Once spare (Once spare e event (.fn ca ia)) event (.fn cb ib)).stored event =
      [.wrapper event (.fn ca ia) e.closures,
        .wrapper event (.fn cb ib) (e.closures + 1)] := by
    rw [stored_Once spare event _ (hwf1.cap event), stored_Once spare event _ (hwf.cap event),
      hnone, hc]
    rfl
  have hscan : scan (Listener.wrapper event (.fn cb ib) (e.closures + 1)).pointer
      ((Once spare (Once spare e event (.fn ca ia)) event (.fn cb ib)).stored event) =
      some 0 := by
    rw [hst]
    simp [scan, Listener.pointer]
  have hoff := stored_Off_of_match hwf2 hscan (by rw [hst]; simp)
  rw [hst] at hoff
  obtain ⟨h1, h2⟩ := Emit_two_wrappers ca ia e.closures cb ib (e.closures + 1) val hwf2 hst
  exact ⟨hst, hscan, by simpa using hoff, h1, h2⟩

/-- The statement of C18, as amended, at the state `onBar` and the event "foo". -/
theorem Once_pair_fires_in_order_witness :
    onBar.WF ∧ onBar.stored "foo" = [] ∧
    (Once goSpare (Once goSpare onBar "foo" (.fn 2 0)) "foo" (.fn 3 0)).stored "foo" =
      [.wrapper "foo" (.fn 2 0) onBar.closures,
        .wrapper "foo" (.fn 3 0) (onBar.closures + 1)] ∧
    scan (Listener.wrapper "foo" (.fn 3 0) (onBar.closures + 1)).pointer
      ((Once goSpare (Once goSpare onBar "foo" (.fn 2 0)) "foo" (.fn 3 0)).stored "foo")
      = some 0 ∧
    (Off (Once goSpare (Once goSpare onBar "foo" (.fn 2 0)) "foo" (.fn 3 0)) "foo"
      (.wrapper "foo" (.fn 3 0) (onBar.closures + 1))).1.stored "foo" =
      [.wrapper "foo" (.fn 3 0) (onBar.closures + 1),
        .wrapper "foo" (.fn 3 0) (onBar.closures + 1)] ∧
    (Emit (Once goSpare (Once goSpare onBar "foo" (.fn 2 0)) "foo" (.fn 3 0)) "foo"
      (7 : Nat)).out = .returned none ∧
    (Emit (Once goSpare (Once goSpare onBar "foo" (.fn 2 0)) "foo" (.fn 3 0)) "foo"
      (7 : Nat)).calls = [(.fn 2 0, 7), (.fn 3 0, 7)] :=
  ⟨WF_On _ _ _ WF_NewEmitter, by decide,
    Once_pair_fires_in_order goSpare onBar "foo" 2 0 3 0 (7 : Nat)
      (WF_On _ _ _ WF_NewEmitter) (by decide)⟩

end GoEmitter
